import Mathlib

/-!
# Verification of the finite-difference wave / Poisson solvers

Shallow embedding of `Wave2D.py` (classes `Wave2D`, `Wave2D_Neumann`) and
`poisson2d.py` (class `Poisson2D`).  Matrices are total functions
`Fin n → Fin n → ℚ`; the fallible scipy constructions are wrapped in
`Option`; the Python exceptions raised inside the solver loop are modelled
with `Except String`.

Two modelling conventions, used consistently below:

* The code computes discrete L2 errors through `np.sqrt`; square roots of
  rationals are irrational, so the embedding carries the *squared* L2
  errors.  `Real.sqrt` is strictly monotone on nonnegative arguments, so
  every ordering or nullity statement about the error sequences is
  unaffected by this convention.

* `scipy.sparse.linalg.spsolve` is external library code.  It is modelled
  by `spsolve_model`, Cramer's rule, which agrees with the unique solution
  of the linear system whenever the assembled matrix is nonsingular
  (`spsolve_model_spec` below records this fidelity property).
-/

open scoped Matrix

/-- Square rational matrices, the carrier for all discrete fields and
operators of the two solvers. -/
abbrev Mtx (n : ℕ) : Type := Matrix (Fin n) (Fin n) ℚ

/-- Embedding of `sparse.diags([1, -2, 1], [-1, 0, 1], (N+1, N+1))`: the tridiagonal
core shared by every variant of `D2` (value 1 on the subdiagonal, -2 on
the diagonal, 1 on the superdiagonal). -/
def diags3 (N : ℕ) : Mtx (N + 1) :=
  Matrix.of fun i j =>
    if (j : ℕ) + 1 = (i : ℕ) then 1
    else if (i : ℕ) = (j : ℕ) then -2
    else if (i : ℕ) + 1 = (j : ℕ) then 1 else 0

/-- The matrix produced by `Wave2D.D2` / `Poisson2D.D2` when the scipy
calls succeed (`N ≥ 3`): the tridiagonal core, with row 0 columns 0..3
overwritten by `2, -5, 4, -1` (`D[0, :4] = ...`) and row `N` columns
`N-3..N` overwritten by `-1, 4, -5, 2` (`D[-1, -4:] = ...`), everything
divided by `h²`. -/
def D2_dirichlet_mat (N : ℕ) (h : ℚ) : Mtx (N + 1) :=
  Matrix.of fun i j =>
    (if (i : ℕ) = 0 then
       if (j : ℕ) = 0 then 2
       else if (j : ℕ) = 1 then -5
       else if (j : ℕ) = 2 then 4
       else if (j : ℕ) = 3 then -1
       else diags3 N i j
     else if (i : ℕ) = N then
       if (j : ℕ) = N then 2
       else if (j : ℕ) + 1 = N then -5
       else if (j : ℕ) + 2 = N then 4
       else if (j : ℕ) + 3 = N then -1
       else diags3 N i j
     else diags3 N i j) / h ^ 2

/-- Embedding of `Wave2D.D2` / `Poisson2D.D2` with their failure modes.  In Python,
`sparse.diags` with offsets `±1` raises for a `1×1` matrix (`N = 0`), and
the slice assignment `D[0, :4] = 2, -5, 4, -1` raises a shape-mismatch
`ValueError` whenever the matrix has fewer than 4 columns (`N + 1 < 4`).
Hence the construction raises exactly when `N < 3` and otherwise returns
the matrix `D2_dirichlet_mat`. -/
def D2_dirichlet (N : ℕ) (h : ℚ) : Option (Mtx (N + 1)) :=
  if N < 3 then none else some (D2_dirichlet_mat N h)

/-- The matrix produced by `Wave2D_Neumann.D2` when the scipy calls
succeed (`N ≥ 1`): the tridiagonal core with row 0 columns 0..1
overwritten by `-2, 2` (`D[0, :2] = ...`) and row `N` columns `N-1..N`
overwritten by `2, -2` (`D[-1, -2:] = ...`), divided by `h²`. -/
def D2_neumann_mat (N : ℕ) (h : ℚ) : Mtx (N + 1) :=
  Matrix.of fun i j =>
    (if (i : ℕ) = 0 then
       if (j : ℕ) = 0 then -2
       else if (j : ℕ) = 1 then 2
       else diags3 N i j
     else if (i : ℕ) = N then
       if (j : ℕ) = N then -2
       else if (j : ℕ) + 1 = N then 2
       else diags3 N i j
     else diags3 N i j) / h ^ 2

/-- Embedding of `Wave2D_Neumann.D2` with its failure modes: only `sparse.diags` can
raise (for `N = 0`); the 2-point slice assignments fit for every
`N ≥ 1`. -/
def D2_neumann (N : ℕ) (h : ℚ) : Option (Mtx (N + 1)) :=
  if N = 0 then none else some (D2_neumann_mat N h)

/-- The Dirichlet operator exactly as the spec describes it: interior
rows `1..N-1` carry `1, -2, 1` at columns `i-1, i, i+1` and are zero
elsewhere, row 0 is `[2,-5,4,-1,0,…]`, row `N` is `[…,0,-1,4,-5,2]`,
every entry divided by `h²`. -/
def D2_dirichlet_spec (N : ℕ) (h : ℚ) : Mtx (N + 1) :=
  Matrix.of fun i j =>
    (if (i : ℕ) = 0 then
       if (j : ℕ) = 0 then 2
       else if (j : ℕ) = 1 then -5
       else if (j : ℕ) = 2 then 4
       else if (j : ℕ) = 3 then -1
       else 0
     else if (i : ℕ) = N then
       if (j : ℕ) = N then 2
       else if (j : ℕ) + 1 = N then -5
       else if (j : ℕ) + 2 = N then 4
       else if (j : ℕ) + 3 = N then -1
       else 0
     else
       if (j : ℕ) + 1 = (i : ℕ) then 1
       else if (i : ℕ) = (j : ℕ) then -2
       else if (i : ℕ) + 1 = (j : ℕ) then 1
       else 0) / h ^ 2

/-- The Neumann operator exactly as the spec describes it: the Dirichlet
interior (entries `1, -2, 1` on the three central diagonals) except that
row 0 is `[-2,2,0,…]` and row `N` is `[…,0,2,-2]`, divided by `h²`. -/
def D2_neumann_spec (N : ℕ) (h : ℚ) : Mtx (N + 1) :=
  Matrix.of fun i j =>
    (if (i : ℕ) = 0 then
       if (j : ℕ) = 0 then -2
       else if (j : ℕ) = 1 then 2
       else 0
     else if (i : ℕ) = N then
       if (j : ℕ) = N then -2
       else if (j : ℕ) + 1 = N then 2
       else 0
     else
       if (j : ℕ) + 1 = (i : ℕ) then 1
       else if (i : ℕ) = (j : ℕ) then -2
       else if (i : ℕ) + 1 = (j : ℕ) then 1
       else 0) / h ^ 2

/-- Claim C2, counterexample.  At resolution `N = 3 < 4` the Dirichlet `D2`
construction succeeds and returns a matrix, so the claim that every
`N < 4` fails is false. -/
theorem d2_dirichlet_succeeds_at_three : (D2_dirichlet 3 1).isSome = true := by
  rfl

/-- Claim C2, amended.  The operator builder performs no resolution
validation and raises no `InvalidResolution` error: the Dirichlet variant
fails (with a scipy shape/offset error) exactly when `N < 3`, and the
Neumann variant exactly when `N = 0`; for all other resolutions a matrix
is returned. -/
theorem d2_failure_characterization (N : ℕ) (h : ℚ) :
    (D2_dirichlet N h = none ↔ N < 3) ∧ (D2_neumann N h = none ↔ N = 0) := by
  constructor
  · unfold D2_dirichlet
    split <;> simp_all
  · unfold D2_neumann
    split <;> simp_all

set_option maxHeartbeats 2000000 in
/-- Entrywise, the constructed Dirichlet operator agrees with its
closed-form description: outside the listed stencil positions only zeros
of the tridiagonal core survive the row overwrites. -/
theorem d2_dirichlet_mat_eq_spec (N : ℕ) (h : ℚ) :
    D2_dirichlet_mat N h = D2_dirichlet_spec N h := by
  funext i j
  have hi := i.isLt
  have hj := j.isLt
  have key : ∀ a b : ℚ, a = b → a / h ^ 2 = b / h ^ 2 := by
    intro a b hab; rw [hab]
  simp only [D2_dirichlet_mat, D2_dirichlet_spec, diags3, Matrix.of_apply]
  apply key
  split_ifs <;> first | rfl | omega

set_option maxHeartbeats 2000000 in
/-- Entrywise, the constructed Neumann operator agrees with its
closed-form description. -/
theorem d2_neumann_mat_eq_spec (N : ℕ) (h : ℚ) :
    D2_neumann_mat N h = D2_neumann_spec N h := by
  funext i j
  have hi := i.isLt
  have hj := j.isLt
  have key : ∀ a b : ℚ, a = b → a / h ^ 2 = b / h ^ 2 := by
    intro a b hab; rw [hab]
  simp only [D2_neumann_mat, D2_neumann_spec, diags3, Matrix.of_apply]
  apply key
  split_ifs <;> first | rfl | omega

/-- Claim C3.  For every `N ≥ 4` and spacing `h > 0`, the Dirichlet-variant
1D operator is returned and equals the matrix described by the spec:
interior rows `1..N-1` have `1, -2, 1` at columns `i-1, i, i+1` and zero
elsewhere, row 0 is `[2,-5,4,-1,0,…]`, row `N` is `[…,0,-1,4,-5,2]`,
every entry divided by `h²`. -/
theorem d2_dirichlet_matches_spec (N : ℕ) (h : ℚ) (hN : 4 ≤ N) (hh : 0 < h) :
    D2_dirichlet N h = some (D2_dirichlet_spec N h) := by
  have hno : ¬ N < 3 := by omega
  rw [D2_dirichlet, if_neg hno]
  exact congrArg some (d2_dirichlet_mat_eq_spec N h)

/-- Witness for C3 at `N = 4`, `h = 1`. -/
theorem d2_dirichlet_matches_spec_witness :
    4 ≤ 4 ∧ (0 : ℚ) < 1 ∧ D2_dirichlet 4 1 = some (D2_dirichlet_spec 4 1) :=
  ⟨by decide, by decide, d2_dirichlet_matches_spec 4 1 (by decide) (by decide)⟩

/-- Claim C4.  For every `N ≥ 4` and spacing `h > 0`, the Neumann-variant 1D
operator is returned and equals the matrix described by the spec: the
Dirichlet interior (`1, -2, 1` on the three central diagonals) except
that row 0 is `[-2,2,0,…]` and row `N` is `[…,0,2,-2]`, every entry
divided by `h²`. -/
theorem d2_neumann_matches_spec (N : ℕ) (h : ℚ) (hN : 4 ≤ N) (hh : 0 < h) :
    D2_neumann N h = some (D2_neumann_spec N h) := by
  have hno : ¬ N = 0 := by omega
  rw [D2_neumann, if_neg hno]
  exact congrArg some (d2_neumann_mat_eq_spec N h)

/-- Witness for C4 at `N = 4`, `h = 1`. -/
theorem d2_neumann_matches_spec_witness :
    4 ≤ 4 ∧ (0 : ℚ) < 1 ∧ D2_neumann 4 1 = some (D2_neumann_spec 4 1) :=
  ⟨by decide, by decide, d2_neumann_matches_spec 4 1 (by decide) (by decide)⟩

/-- Claim C7.  For every `N ≥ 4`, `h > 0` and both boundary variants, the 1D
operator satisfies `D[i,j] = D[j,i]` for all `i, j` in `1..N-1`: the
matrix is symmetric except possibly in entries involving its two boundary
rows. -/
theorem d2_interior_symmetric (N : ℕ) (h : ℚ) (i j : Fin (N + 1))
    (hN : 4 ≤ N) (hh : 0 < h)
    (hi1 : 1 ≤ (i : ℕ)) (hi2 : (i : ℕ) ≤ N - 1)
    (hj1 : 1 ≤ (j : ℕ)) (hj2 : (j : ℕ) ≤ N - 1) :
    D2_dirichlet_mat N h i j = D2_dirichlet_mat N h j i ∧
      D2_neumann_mat N h i j = D2_neumann_mat N h j i := by
  have hi := i.isLt
  have hj := j.isLt
  have hi0 : ¬ (i : ℕ) = 0 := by omega
  have hiN : ¬ (i : ℕ) = N := by omega
  have hj0 : ¬ (j : ℕ) = 0 := by omega
  have hjN : ¬ (j : ℕ) = N := by omega
  have key : ∀ a b : ℚ, a = b → a / h ^ 2 = b / h ^ 2 := by
    intro a b hab; rw [hab]
  rw [d2_dirichlet_mat_eq_spec, d2_neumann_mat_eq_spec]
  constructor <;>
    · simp only [D2_dirichlet_spec, D2_neumann_spec, Matrix.of_apply,
        if_neg hi0, if_neg hiN, if_neg hj0, if_neg hjN]
      apply key
      split_ifs <;> first | rfl | omega

/-- Witness for C7 at `N = 4`, `h = 1`, `i = 1`, `j = 2`. -/
theorem d2_interior_symmetric_witness :
    4 ≤ 4 ∧ (0 : ℚ) < 1 ∧
      1 ≤ ((1 : Fin 5) : ℕ) ∧ ((1 : Fin 5) : ℕ) ≤ 4 - 1 ∧
      1 ≤ ((2 : Fin 5) : ℕ) ∧ ((2 : Fin 5) : ℕ) ≤ 4 - 1 ∧
      (D2_dirichlet_mat 4 1 1 2 = D2_dirichlet_mat 4 1 2 1 ∧
        D2_neumann_mat 4 1 1 2 = D2_neumann_mat 4 1 2 1) :=
  ⟨by decide, by decide, by decide, by decide, by decide, by decide,
    d2_interior_symmetric 4 1 1 2 (by decide) (by decide) (by decide)
      (by decide) (by decide) (by decide)⟩

/-- Embedding of `Wave2D.initialize` (after the mesh/exact-solution setup): the state
pair `(Unm1, Un)` with `Unm1 = u_exact(·,·,0)` — the abstract sample
`U0`, the manufactured solution being an external black-box evaluator —
and `Un = Unm1 + c²·dt²/2 · (D2 @ Unm1 + Unm1 @ D2.T)`. -/
def wave_init {n : ℕ} (A : Mtx n) (c dt : ℚ) (U0 : Mtx n) : Mtx n × Mtx n :=
  (U0, U0 + (c ^ 2 * dt ^ 2 / 2) • (A * U0 + U0 * Aᵀ))

/-- Row assignment `U[r] = 0`: zero a single row. -/
def zero_row {n : ℕ} (r : Fin n) (U : Mtx n) : Mtx n :=
  Matrix.of fun i j => if i = r then 0 else U i j

/-- Column assignment `U[:, r] = 0`: zero a single column. -/
def zero_col {n : ℕ} (r : Fin n) (U : Mtx n) : Mtx n :=
  Matrix.of fun i j => if j = r then 0 else U i j

/-- Embedding of `Wave2D.apply_bcs`: `Unp1[0] = 0`, `Unp1[-1] = 0`, `Unp1[:,0] = 0`,
`Unp1[:,-1] = 0`, in that order. -/
def apply_bcs (N : ℕ) (U : Mtx (N + 1)) : Mtx (N + 1) :=
  zero_col (Fin.last N) (zero_col 0 (zero_row (Fin.last N) (zero_row 0 U)))

/-- One iteration of the loop in `Wave2D.__call__`, acting on the state
`(Unm1, Un)`: `Unp1 = 2·Un − Unm1 + (c·dt)²·(D2 @ Un + Un @ D2.T)`, then
the boundary enforcement (`apply_bcs`, or a no-op for the Neumann
subclass), then the rotation `Unm1 ← Un`, `Un ← Unp1`. -/
def wave_step {n : ℕ} (A : Mtx n) (c dt : ℚ) (enforce : Mtx n → Mtx n)
    (s : Mtx n × Mtx n) : Mtx n × Mtx n :=
  (s.2, enforce ((2 : ℚ) • s.2 - s.1 + (c * dt) ^ 2 • (A * s.2 + s.2 * Aᵀ)))

/-- The field state of `Wave2D.__call__` after `k` executions of the loop
body, starting from the state built by `initialize`. -/
def wave_iter {n : ℕ} (A : Mtx n) (c dt : ℚ) (enforce : Mtx n → Mtx n)
    (U0 : Mtx n) : ℕ → Mtx n × Mtx n
  | 0 => wave_init A c dt U0
  | k + 1 => wave_step A c dt enforce (wave_iter A c dt enforce U0 k)

/-- The reference recurrence of time layers, written from the spec's
words: `U⁰` is the exact sample at `t = 0`; `U¹ = U⁰ + (c²·dt²/2)·(D2·U⁰
+ U⁰·D2ᵗ)`; and `Uⁿ⁺² = 2·Uⁿ⁺¹ − Uⁿ + (c·dt)²·(D2·Uⁿ⁺¹ + Uⁿ⁺¹·D2ᵗ)`
followed by the boundary policy's enforcement step. -/
def ref_layer {n : ℕ} (A : Mtx n) (c dt : ℚ) (enforce : Mtx n → Mtx n)
    (U0 : Mtx n) : ℕ → Mtx n
  | 0 => U0
  | 1 => U0 + (c ^ 2 * dt ^ 2 / 2) • (A * U0 + U0 * Aᵀ)
  | k + 2 =>
    enforce ((2 : ℚ) • ref_layer A c dt enforce U0 (k + 1)
      - ref_layer A c dt enforce U0 k
      + (c * dt) ^ 2 • (A * ref_layer A c dt enforce U0 (k + 1)
          + ref_layer A c dt enforce U0 (k + 1) * Aᵀ))

/-- Claim C1.  For every wave solve (any operator matrix `A` and boundary
enforcement step, covering both the Dirichlet and the Neumann policy;
any initial exact sample `U0`; `dt = cfl·h/c`), the sequence of computed
field layers equals the reference recurrence: after `k` loop iterations
the state `(Unm1, Un)` is exactly `(U^k, U^{k+1})` of `ref_layer`, with
no other modification of the layers. -/
theorem wave_layers_eq_reference {n : ℕ} (A : Mtx n) (enforce : Mtx n → Mtx n)
    (U0 : Mtx n) (cfl c h : ℚ) (k : ℕ) :
    wave_iter A c (cfl * h / c) enforce U0 k
      = (ref_layer A c (cfl * h / c) enforce U0 k,
         ref_layer A c (cfl * h / c) enforce U0 (k + 1)) := by
  induction k with
  | zero => rfl
  | succ k ih =>
    rw [wave_iter, ih]
    simp only [wave_step, ref_layer]

/-- Claim C6.  For every Dirichlet wave solve (operator `D2_dirichlet_mat`,
spacing `h = 1/N`, `dt = cfl·h/c`, enforcement `apply_bcs`) and every
step `m ≥ 1`, immediately after step `m` completes all entries of the
four edges (row 0, row `N`, column 0, column `N`) of the updated time
layer `Un` are exactly `0`. -/
theorem dirichlet_step_edges_zero (N : ℕ) (cfl c : ℚ) (U0 : Mtx (N + 1))
    (m : ℕ) (hm : 1 ≤ m) (j : Fin (N + 1)) :
    (wave_iter (D2_dirichlet_mat N (1 / (N : ℚ))) c (cfl * (1 / (N : ℚ)) / c)
        (apply_bcs N) U0 m).2 0 j = 0 ∧
    (wave_iter (D2_dirichlet_mat N (1 / (N : ℚ))) c (cfl * (1 / (N : ℚ)) / c)
        (apply_bcs N) U0 m).2 (Fin.last N) j = 0 ∧
    (wave_iter (D2_dirichlet_mat N (1 / (N : ℚ))) c (cfl * (1 / (N : ℚ)) / c)
        (apply_bcs N) U0 m).2 j 0 = 0 ∧
    (wave_iter (D2_dirichlet_mat N (1 / (N : ℚ))) c (cfl * (1 / (N : ℚ)) / c)
        (apply_bcs N) U0 m).2 j (Fin.last N) = 0 := by
  obtain ⟨k, rfl⟩ : ∃ k, m = k + 1 := ⟨m - 1, by omega⟩
  simp only [wave_iter, wave_step]
  refine ⟨?_, ?_, ?_, ?_⟩ <;>
    · simp only [apply_bcs, zero_col, zero_row, Matrix.of_apply]
      split_ifs <;> rfl

/-- Witness for C6 at `N = 2`, `cfl = c = 1`, `U0 = 0`, step `m = 1`,
edge index `j = 0`. -/
theorem dirichlet_step_edges_zero_witness :
    1 ≤ 1 ∧
    ((wave_iter (D2_dirichlet_mat 2 (1 / ((2 : ℕ) : ℚ))) 1
        (1 * (1 / ((2 : ℕ) : ℚ)) / 1) (apply_bcs 2) 0 1).2 0 0 = 0 ∧
     (wave_iter (D2_dirichlet_mat 2 (1 / ((2 : ℕ) : ℚ))) 1
        (1 * (1 / ((2 : ℕ) : ℚ)) / 1) (apply_bcs 2) 0 1).2 (Fin.last 2) 0 = 0 ∧
     (wave_iter (D2_dirichlet_mat 2 (1 / ((2 : ℕ) : ℚ))) 1
        (1 * (1 / ((2 : ℕ) : ℚ)) / 1) (apply_bcs 2) 0 1).2 0 0 = 0 ∧
     (wave_iter (D2_dirichlet_mat 2 (1 / ((2 : ℕ) : ℚ))) 1
        (1 * (1 / ((2 : ℕ) : ℚ)) / 1) (apply_bcs 2) 0 1).2 0 (Fin.last 2) = 0) :=
  ⟨Nat.le_refl 1, dirichlet_step_edges_zero 2 1 1 0 1 (Nat.le_refl 1) 0⟩

/-- Embedding of `Wave2D.l2_error(u, t0)`, squared: the code returns
`sqrt(h²·Σ (u − u_exact(·,·,t0))²)`; the model carries the square (see
the file header).  `v` is the exact-solution sample at the comparison
time. -/
def l2_error_sq {n : ℕ} (h : ℚ) (u v : Mtx n) : ℚ :=
  h ^ 2 * ∑ i, ∑ j, (u i j - v i j) ^ 2

/-- One iteration of the loop body of `Wave2D.__call__` at loop index
`i`, acting on (field state, l2 list, plot-data list): the field update
and rotation of `wave_step`, the error append
`l2_list.append(l2_error(Un, (i+1)·dt))`, then the test
`i % store_data == 0`.  Python raises `ZeroDivisionError` when
`store_data = 0`; its `%` on integers is floored modulo (`Int.fmod`).
`plot_data[i] = Unm1.copy()` stores the rotated `Unm1`, i.e. the previous
`Un`, modelled by appending `(i, Unm1)`. -/
def wave_loop_body {n : ℕ} (A : Mtx n) (c dt : ℚ) (enforce : Mtx n → Mtx n)
    (uex : ℚ → Mtx n) (h : ℚ) (storeData : ℤ) (i : ℕ)
    (st : (Mtx n × Mtx n) × List ℚ × List (ℤ × Mtx n)) :
    Except String ((Mtx n × Mtx n) × List ℚ × List (ℤ × Mtx n)) :=
  let s := wave_step A c dt enforce st.1
  let l2 := st.2.1 ++ [l2_error_sq h s.2 (uex (((i : ℚ) + 1) * dt))]
  if storeData = 0 then Except.error "ZeroDivisionError"
  else if Int.fmod (i : ℤ) storeData = 0 then
    Except.ok (s, l2, st.2.2 ++ [((i : ℤ), s.1)])
  else Except.ok (s, l2, st.2.2)

/-- The loop `for i in range(1, Nt)` of `Wave2D.__call__`: `k` remaining
iterations starting at loop index `i`. -/
def wave_loop {n : ℕ} (A : Mtx n) (c dt : ℚ) (enforce : Mtx n → Mtx n)
    (uex : ℚ → Mtx n) (h : ℚ) (storeData : ℤ) :
    ℕ → ℕ → ((Mtx n × Mtx n) × List ℚ × List (ℤ × Mtx n)) →
      Except String ((Mtx n × Mtx n) × List ℚ × List (ℤ × Mtx n))
  | _, 0, st => Except.ok st
  | i, k + 1, st =>
    match wave_loop_body A c dt enforce uex h storeData i st with
    | Except.error e => Except.error e
    | Except.ok st' => wave_loop A c dt enforce uex h storeData (i + 1) k st'

/-- Embedding of `Wave2D.__call__` for either boundary variant (the variant supplies
its `D2` result and its `apply_bcs`): mesh spacing `h = 1/N`,
`dt = cfl·h/c`, `initialize`, the initial error entry
`[l2_error(Un, dt)]`, the loop over `i = 1..Nt-1`, and the final return:
`(h, l2_list)` when `store_data == -1`, the snapshot dictionary
otherwise (the returned mesh arrays are omitted).  The exact-solution
evaluator `uex` maps a time to the sampled field. -/
def wave_call_core {N : ℕ} (D2opt : Option (Mtx (N + 1)))
    (enforce : Mtx (N + 1) → Mtx (N + 1)) (Nt : ℕ) (cfl c : ℚ)
    (uex : ℚ → Mtx (N + 1)) (storeData : ℤ) :
    Except String ((ℚ × List ℚ) ⊕ List (ℤ × Mtx (N + 1))) :=
  let h : ℚ := 1 / (N : ℚ)
  let dt : ℚ := cfl * h / c
  match D2opt with
  | none => Except.error "ValueError"
  | some A =>
    let s0 := wave_init A c dt (uex 0)
    match wave_loop A c dt enforce uex h storeData 1 (Nt - 1)
        (s0, [l2_error_sq h s0.2 (uex dt)], []) with
    | Except.error e => Except.error e
    | Except.ok st =>
      if storeData = -1 then Except.ok (Sum.inl (h, st.2.1))
      else Except.ok (Sum.inr st.2.2)

/-- Entry point `Wave2D()(N, Nt, cfl, c, ..., store_data)`. -/
def wave_call_dirichlet (N Nt : ℕ) (cfl c : ℚ) (uex : ℚ → Mtx (N + 1))
    (storeData : ℤ) : Except String ((ℚ × List ℚ) ⊕ List (ℤ × Mtx (N + 1))) :=
  wave_call_core (D2_dirichlet N (1 / (N : ℚ))) (apply_bcs N) Nt cfl c uex storeData

/-- Entry point `Wave2D_Neumann()(N, Nt, cfl, c, ..., store_data)`: same driver with
the Neumann operator and the no-op `apply_bcs`. -/
def wave_call_neumann (N Nt : ℕ) (cfl c : ℚ) (uex : ℚ → Mtx (N + 1))
    (storeData : ℤ) : Except String ((ℚ × List ℚ) ⊕ List (ℤ × Mtx (N + 1))) :=
  wave_call_core (D2_neumann N (1 / (N : ℚ))) id Nt cfl c uex storeData

/-- Claim C10.  For every `Nt ≥ 2` (and any resolution `N ≥ 3` at which the
operator construction succeeds), calling the wave solver with
`store_data = 0` fails with a division-by-zero error — the first loop
iteration evaluates `i % store_data` — rather than returning the error
list or a snapshot dictionary.  Both boundary variants are covered. -/
theorem wave_store_zero_div_error (N Nt : ℕ) (cfl c : ℚ)
    (uex : ℚ → Mtx (N + 1)) (hN : 3 ≤ N) (hNt : 2 ≤ Nt) :
    wave_call_dirichlet N Nt cfl c uex 0 = Except.error "ZeroDivisionError" ∧
      wave_call_neumann N Nt cfl c uex 0 = Except.error "ZeroDivisionError" := by
  obtain ⟨k, hk⟩ : ∃ k, Nt - 1 = k + 1 := ⟨Nt - 2, by omega⟩
  have hd : D2_dirichlet N (1 / (N : ℚ)) = some (D2_dirichlet_mat N (1 / (N : ℚ))) := by
    rw [D2_dirichlet, if_neg (by omega)]
  have hn : D2_neumann N (1 / (N : ℚ)) = some (D2_neumann_mat N (1 / (N : ℚ))) := by
    rw [D2_neumann, if_neg (by omega)]
  constructor
  · unfold wave_call_dirichlet wave_call_core
    rw [hd, hk]
    rfl
  · unfold wave_call_neumann wave_call_core
    rw [hn, hk]
    rfl

/-- Witness for C10 at `N = 3`, `Nt = 2`, `cfl = c = 1`, zero exact
sample. -/
theorem wave_store_zero_div_error_witness :
    3 ≤ 3 ∧ 2 ≤ 2 ∧
      (wave_call_dirichlet 3 2 1 1 (fun _ => 0) 0
          = Except.error "ZeroDivisionError" ∧
        wave_call_neumann 3 2 1 1 (fun _ => 0) 0
          = Except.error "ZeroDivisionError") :=
  ⟨Nat.le_refl 3, Nat.le_refl 2,
    wave_store_zero_div_error 3 2 1 1 (fun _ => 0) (Nat.le_refl 3) (Nat.le_refl 2)⟩

/-- Embedding of `Poisson2D.create_mesh`: the mesh coordinate
`linspace(0, L, N+1)[i] = L·i/N` (and `h = L/N`). -/
def mesh_coord (L : ℚ) (N : ℕ) (i : ℕ) : ℚ := L * i / N

/-- Grid-point index after `ravel`/`reshape`: the flat index `i·(N+1)+j`
is represented by the (order-preserving, row-major) pair `(i, j)`. -/
abbrev Grid (N : ℕ) : Type := Fin (N + 1) × Fin (N + 1)

/-- Embedding of `sparse.kron(A, B)` on pair indices:
`kron(A,B)[(i,j),(k,l)] = A[i,k]·B[j,l]`. -/
def kron2 {n : ℕ} (A B : Mtx n) : Matrix (Fin n × Fin n) (Fin n × Fin n) ℚ :=
  Matrix.of fun p q => A p.1 q.1 * B p.2 q.2

/-- Embedding of `Poisson2D.laplace`: `kron(D2, I) + kron(I, D2)` with the Dirichlet
operator. -/
def laplace (N : ℕ) (h : ℚ) : Matrix (Grid N) (Grid N) ℚ :=
  kron2 (D2_dirichlet_mat N h) 1 + kron2 1 (D2_dirichlet_mat N h)

/-- Embedding of `Poisson2D.get_boundary_indices`: an all-ones `(N+1)×(N+1)` mask
whose interior slice `[1:-1, 1:-1]` (indices `1..N-1` in both axes) is
zeroed; a grid point is a boundary index iff its mask entry is 1, i.e.
iff it is not in the interior slice. -/
def boundary_mask (N : ℕ) (p : Grid N) : Bool :=
  decide (¬ (1 ≤ (p.1 : ℕ) ∧ (p.1 : ℕ) ≤ N - 1 ∧ 1 ≤ (p.2 : ℕ) ∧ (p.2 : ℕ) ≤ N - 1))

/-- The boundary indices as a list (`np.where` over the raveled mask,
row-major order). -/
def boundary_indices (N : ℕ) : List (Grid N) :=
  ((List.finRange (N + 1)) ×ˢ (List.finRange (N + 1))).filter
    (fun p => boundary_mask N p)

/-- One step of the row-replacement loop in `Poisson2D.assemble`:
`A[i] = 0; A[i, i] = 1`. -/
def set_identity_row {m : Type*} [DecidableEq m] (A : Matrix m m ℚ) (p : m) :
    Matrix m m ℚ :=
  Matrix.of fun q r => if q = p then (if r = p then 1 else 0) else A q r

/-- Embedding of `Poisson2D.assemble`, matrix part: the Kronecker-sum Laplacian with
`h = L/N`, then the loop `for i in bnds: A[i] = 0; A[i,i] = 1`. -/
def assemble_A (N : ℕ) (L : ℚ) : Matrix (Grid N) (Grid N) ℚ :=
  (boundary_indices N).foldl set_identity_row (laplace N (L / (N : ℚ)))

/-- Embedding of `Poisson2D.assemble`, right-hand side: `b = F.ravel()` (the sampled
source term `f`, the symbolic Laplacian of the manufactured solution,
both external evaluators), then `b[bnds] = u_exact.ravel()[bnds]`.
The lambdified sampling is modelled as total pointwise application;
note that for a *constant* symbolic expression the real `lambdify`
returns a scalar and `F.ravel()` in `assemble` raises `AttributeError`,
so concrete instantiations below use evaluators of nonconstant
expressions, where the pointwise model is exact. -/
def assemble_b (N : ℕ) (L : ℚ) (ue f : ℚ → ℚ → ℚ) : Grid N → ℚ :=
  fun p =>
    if boundary_mask N p then ue (mesh_coord L N (p.1 : ℕ)) (mesh_coord L N (p.2 : ℕ))
    else f (mesh_coord L N (p.1 : ℕ)) (mesh_coord L N (p.2 : ℕ))

/-- The assembled matrix as the spec describes it: the Kronecker sum
`D2⊗I + I⊗D2`, with the row of every index on the outer ring of the
`(N+1)×(N+1)` grid replaced by an identity row. -/
def assemble_A_spec (N : ℕ) (L : ℚ) : Matrix (Grid N) (Grid N) ℚ :=
  Matrix.of fun p q =>
    if p.1 = 0 ∨ p.1 = Fin.last N ∨ p.2 = 0 ∨ p.2 = Fin.last N then
      if q = p then 1 else 0
    else laplace N (L / (N : ℚ)) p q

/-- The right-hand side as the spec describes it: interior entries are
the sampled source term, outer-ring entries the sampled exact
solution. -/
def assemble_b_spec (N : ℕ) (L : ℚ) (ue f : ℚ → ℚ → ℚ) : Grid N → ℚ :=
  fun p =>
    if p.1 = 0 ∨ p.1 = Fin.last N ∨ p.2 = 0 ∨ p.2 = Fin.last N then
      ue (mesh_coord L N (p.1 : ℕ)) (mesh_coord L N (p.2 : ℕ))
    else f (mesh_coord L N (p.1 : ℕ)) (mesh_coord L N (p.2 : ℕ))

/-- The net effect of the row-replacement fold: an identity row at every
index in the list, the original matrix elsewhere. -/
theorem foldl_set_identity_row {m : Type*} [DecidableEq m]
    (l : List m) (A : Matrix m m ℚ) (p q : m) :
    (l.foldl set_identity_row A) p q
      = if p ∈ l then (if q = p then 1 else 0) else A p q := by
  induction l generalizing A with
  | nil => simp
  | cons a l ih =>
    rw [List.foldl_cons, ih]
    by_cases hpl : p ∈ l
    · simp [hpl, List.mem_cons]
    · by_cases hpa : p = a
      · subst hpa
        simp [hpl, set_identity_row]
      · simp [hpl, hpa, set_identity_row, List.mem_cons]

/-- Membership in the boundary list is the boundary mask. -/
theorem mem_boundary_indices (N : ℕ) (p : Grid N) :
    p ∈ boundary_indices N ↔ boundary_mask N p = true := by
  obtain ⟨p1, p2⟩ := p
  simp [boundary_indices, List.mem_filter]

/-- The mask condition ("not in the interior slice") is exactly the
outer ring of the grid. -/
theorem boundary_mask_iff_ring (N : ℕ) (p : Grid N) :
    boundary_mask N p = true ↔
      (p.1 = 0 ∨ p.1 = Fin.last N ∨ p.2 = 0 ∨ p.2 = Fin.last N) := by
  have h1 := p.1.isLt
  have h2 := p.2.isLt
  simp only [boundary_mask, decide_eq_true_eq, Fin.ext_iff, Fin.val_last,
    Fin.val_zero]
  omega

/-- Claim C5.  For every Poisson solve at resolution `N` (any `N ≥ 3` at
which the operator construction succeeds, any domain length `L` and
manufactured solution/source pair), the assembled matrix equals the
Kronecker sum `D2⊗I + I⊗D2` of the Dirichlet 1D operator with the rows
of all outer-ring indices replaced by identity rows, and the right-hand
side has interior entries `f(x,y)` and boundary entries equal to the
sampled exact solution. -/
theorem poisson_assemble_matches_spec (N : ℕ) (L : ℚ) (ue f : ℚ → ℚ → ℚ)
    (hN : 3 ≤ N) :
    assemble_A N L = assemble_A_spec N L ∧
      assemble_b N L ue f = assemble_b_spec N L ue f := by
  constructor
  · funext p q
    rw [assemble_A, foldl_set_identity_row]
    show _ = assemble_A_spec N L p q
    rw [assemble_A_spec]
    by_cases hp : (p.1 = 0 ∨ p.1 = Fin.last N ∨ p.2 = 0 ∨ p.2 = Fin.last N)
    · rw [Matrix.of_apply, if_pos hp,
        if_pos ((mem_boundary_indices N p).mpr ((boundary_mask_iff_ring N p).mpr hp))]
    · rw [Matrix.of_apply, if_neg hp, if_neg (fun hmem =>
        hp ((boundary_mask_iff_ring N p).mp ((mem_boundary_indices N p).mp hmem)))]
  · funext p
    rw [assemble_b, assemble_b_spec]
    by_cases hp : (p.1 = 0 ∨ p.1 = Fin.last N ∨ p.2 = 0 ∨ p.2 = Fin.last N)
    · rw [if_pos hp, if_pos (by rw [boundary_mask_iff_ring]; exact hp)]
    · rw [if_neg hp, if_neg (by rw [boundary_mask_iff_ring]; exact hp)]

/-- Witness for C5 at `N = 3`, `L = 1`, zero data. -/
theorem poisson_assemble_matches_spec_witness :
    3 ≤ 3 ∧
      (assemble_A 3 1 = assemble_A_spec 3 1 ∧
        assemble_b 3 1 (fun _ _ => 0) (fun _ _ => 0)
          = assemble_b_spec 3 1 (fun _ _ => 0) (fun _ _ => 0)) :=
  ⟨Nat.le_refl 3,
    poisson_assemble_matches_spec 3 1 (fun _ _ => 0) (fun _ _ => 0) (Nat.le_refl 3)⟩

/-- Model of `scipy.sparse.linalg.spsolve(A, b)` (external library code):
the unique solution of the non-singular linear system, realized by
Cramer's rule.  `spsolve_model_spec` records that the model solves the
system whenever the matrix is non-singular, hence coincides there with
any correct direct solver. -/
def spsolve_model {m : Type*} [Fintype m] [DecidableEq m]
    (A : Matrix m m ℚ) (b : m → ℚ) : m → ℚ :=
  fun i => (A.updateColumn i b).det / A.det

/-- Fidelity of the `spsolve` model: for a non-singular matrix the
modelled result solves the system. -/
theorem spsolve_model_spec {m : Type*} [Fintype m] [DecidableEq m]
    (A : Matrix m m ℚ) (b : m → ℚ) (hA : A.det ≠ 0) :
    A.mulVec (spsolve_model A b) = b := by
  have hc : spsolve_model A b = (A.det)⁻¹ • (Matrix.cramer A b) := by
    funext i
    show (A.updateColumn i b).det / A.det = (A.det)⁻¹ • (Matrix.cramer A b) i
    rw [Matrix.cramer_apply, smul_eq_mul, div_eq_mul_inv, mul_comm]
  rw [hc, Matrix.mulVec_smul, Matrix.mulVec_cramer, smul_smul,
    inv_mul_cancel₀ hA, one_smul]

/-- Embedding of `Poisson2D.__call__`: build the mesh, assemble, solve directly, and
reshape (the pair index is the reshaped grid index). -/
def poisson_call (L : ℚ) (ue f : ℚ → ℚ → ℚ) (N : ℕ) : Grid N → ℚ :=
  spsolve_model (assemble_A N L) (assemble_b N L ue f)

/-- Embedding of `Poisson2D.l2_error`, squared (see the file header):
`h²·Σ (u_exact − u)²` over the whole mesh, with `u_exact` the exact
sample stored by `assemble` and `h = L/N`. -/
def l2_error_sq_poisson (L : ℚ) (N : ℕ) (ue : ℚ → ℚ → ℚ) (u : Grid N → ℚ) : ℚ :=
  (L / (N : ℚ)) ^ 2 *
    ∑ p : Grid N, (ue (mesh_coord L N (p.1 : ℕ)) (mesh_coord L N (p.2 : ℕ)) - u p) ^ 2

/-- The loop of `Poisson2D.convergence_rates`: `k` remaining levels at
current resolution `N0`; per level it solves, appends the L2 error
(squared, see header) and the spacing `h = L/N0`, then doubles `N0`.
Returns `(E, h)`; the order estimates `r` of the source are `np.log`
ratios of these, irrational, hence not carried by the rational model. -/
def convergence_levels (L : ℚ) (ue f : ℚ → ℚ → ℚ) : ℕ → ℕ → List ℚ × List ℚ
  | 0, _ => ([], [])
  | k + 1, N0 =>
    let u := poisson_call L ue f N0
    let rest := convergence_levels L ue f k (N0 * 2)
    (l2_error_sq_poisson L N0 ue u :: rest.1, L / (N0 : ℚ) :: rest.2)

/-- With the zero manufactured solution the assembled right-hand side is
identically zero. -/
theorem assemble_b_zero (N : ℕ) (L : ℚ) :
    assemble_b N L (fun _ _ => 0) (fun _ _ => 0) = 0 := by
  funext p
  show (if boundary_mask N p then (0 : ℚ) else 0) = 0
  split <;> rfl

/-- Multiplying by a vector reads off the entry at an identity row. -/
theorem mulVec_of_identity_row {m : Type*} [Fintype m] [DecidableEq m]
    (M : Matrix m m ℚ) (v : m → ℚ) (p : m)
    (hrow : ∀ q, M p q = if q = p then 1 else 0) :
    M.mulVec v p = v p := by
  have hterm : ∀ q, M p q * v q = if q = p then v q else 0 := by
    intro q
    rw [hrow q]
    by_cases hq : q = p
    · rw [if_pos hq, if_pos hq, one_mul]
    · rw [if_neg hq, if_neg hq, zero_mul]
  rw [Matrix.mulVec, Matrix.dotProduct, Finset.sum_congr rfl fun q _ => hterm q]
  calc (∑ q : m, if q = p then v q else 0)
      = if p ∈ Finset.univ then v p else 0 := Finset.sum_ite_eq' Finset.univ p v
    _ = v p := if_pos (Finset.mem_univ p)

/-- Rows of the assembled matrix at boundary indices are identity rows. -/
theorem assemble_A_identity_row (N : ℕ) (L : ℚ) (p : Grid N)
    (hp : boundary_mask N p = true) (q : Grid N) :
    assemble_A N L p q = if q = p then 1 else 0 := by
  rw [assemble_A, foldl_set_identity_row,
    if_pos ((mem_boundary_indices N p).mpr hp)]

/-- Rows of the assembled matrix at interior indices are the Laplacian
rows. -/
theorem assemble_A_interior_row (N : ℕ) (L : ℚ) (p : Grid N)
    (hp : boundary_mask N p = false) (q : Grid N) :
    assemble_A N L p q = laplace N (L / (N : ℚ)) p q := by
  rw [assemble_A, foldl_set_identity_row, if_neg]
  intro hmem
  have := (mem_boundary_indices N p).mp hmem
  rw [hp] at this
  exact Bool.false_ne_true this

/-- Interior rows of the Dirichlet operator are the tridiagonal core
rows. -/
theorem d2_dirichlet_interior_row (N : ℕ) (h : ℚ) (i : Fin (N + 1))
    (hi1 : 1 ≤ (i : ℕ)) (hi2 : (i : ℕ) ≤ N - 1) (k : Fin (N + 1)) :
    D2_dirichlet_mat N h i k = diags3 N i k / h ^ 2 := by
  have hiN := i.isLt
  have h0 : ¬ (i : ℕ) = 0 := by omega
  have hN' : ¬ (i : ℕ) = N := by omega
  simp only [D2_dirichlet_mat, Matrix.of_apply, if_neg h0, if_neg hN']

/-- Summing an interior tridiagonal row against a vector produces the
centered second difference. -/
theorem diags3_row_sum (N : ℕ) (i : Fin (N + 1)) (hi1 : 1 ≤ (i : ℕ))
    (hi2 : (i : ℕ) ≤ N - 1) (w : Fin (N + 1) → ℚ) (a b c : Fin (N + 1))
    (hav : (a : ℕ) + 1 = (i : ℕ)) (hbv : (b : ℕ) = (i : ℕ))
    (hcv : (c : ℕ) = (i : ℕ) + 1) :
    ∑ k, diags3 N i k * w k = w a - 2 * w b + w c := by
  have key : ∀ k : Fin (N + 1), diags3 N i k * w k
      = (if k = a then w k else 0) + (-2) * (if k = b then w k else 0)
        + (if k = c then w k else 0) := by
    intro k
    have hk := k.isLt
    simp only [diags3, Matrix.of_apply, Fin.ext_iff]
    split_ifs <;> first | (exfalso; omega) | ring1
  rw [Finset.sum_congr rfl fun k _ => key k]
  rw [Finset.sum_add_distrib, Finset.sum_add_distrib, ← Finset.mul_sum]
  rw [Finset.sum_ite_eq' Finset.univ a w, if_pos (Finset.mem_univ a)]
  rw [Finset.sum_ite_eq' Finset.univ b w, if_pos (Finset.mem_univ b)]
  rw [Finset.sum_ite_eq' Finset.univ c w, if_pos (Finset.mem_univ c)]
  ring

/-- Applying `kron(A, I)` to a raveled grid function acts by `A` along
the first axis. -/
theorem kron2_one_mulVec {n : ℕ} (A : Mtx n) (v : Fin n × Fin n → ℚ)
    (p : Fin n × Fin n) :
    (kron2 A 1).mulVec v p = ∑ k, A p.1 k * v (k, p.2) := by
  rw [Matrix.mulVec, Matrix.dotProduct, Fintype.sum_prod_type]
  refine Finset.sum_congr rfl fun k _ => ?_
  have step : ∀ l, kron2 A 1 p (k, l) * v (k, l)
      = if p.2 = l then A p.1 k * v (k, l) else 0 := by
    intro l
    by_cases hl : p.2 = l
    · rw [if_pos hl]
      simp [kron2, Matrix.one_apply, hl]
    · rw [if_neg hl]
      simp [kron2, Matrix.one_apply, hl]
  rw [Finset.sum_congr rfl fun l _ => step l]
  rw [Finset.sum_ite_eq Finset.univ p.2 fun l => A p.1 k * v (k, l),
    if_pos (Finset.mem_univ _)]

/-- Applying `kron(I, A)` to a raveled grid function acts by `A` along
the second axis. -/
theorem one_kron2_mulVec {n : ℕ} (A : Mtx n) (v : Fin n × Fin n → ℚ)
    (p : Fin n × Fin n) :
    (kron2 1 A).mulVec v p = ∑ l, A p.2 l * v (p.1, l) := by
  rw [Matrix.mulVec, Matrix.dotProduct, Fintype.sum_prod_type]
  have step : ∀ k, (∑ l, kron2 1 A p (k, l) * v (k, l))
      = if p.1 = k then ∑ l, A p.2 l * v (k, l) else 0 := by
    intro k
    by_cases hk : p.1 = k
    · rw [if_pos hk]
      refine Finset.sum_congr rfl fun l _ => ?_
      simp [kron2, Matrix.one_apply, hk]
    · rw [if_neg hk]
      refine Finset.sum_eq_zero fun l _ => ?_
      simp [kron2, Matrix.one_apply, hk]
  rw [Finset.sum_congr rfl fun k _ => step k]
  rw [Finset.sum_ite_eq Finset.univ p.1 fun k => ∑ l, A p.2 l * v (k, l),
    if_pos (Finset.mem_univ _)]

/-- At an interior grid point the assembled Laplacian acts as the
five-point second difference. -/
theorem laplace_mulVec_interior (N : ℕ) (h : ℚ) (v : Grid N → ℚ) (p : Grid N)
    (h11 : 1 ≤ (p.1 : ℕ)) (h12 : (p.1 : ℕ) ≤ N - 1)
    (h21 : 1 ≤ (p.2 : ℕ)) (h22 : (p.2 : ℕ) ≤ N - 1) :
    (laplace N h).mulVec v p
      = ((v (⟨(p.1 : ℕ) - 1, by omega⟩, p.2) - 2 * v p
            + v (⟨(p.1 : ℕ) + 1, by omega⟩, p.2))
          + (v (p.1, ⟨(p.2 : ℕ) - 1, by omega⟩) - 2 * v p
            + v (p.1, ⟨(p.2 : ℕ) + 1, by omega⟩))) / h ^ 2 := by
  have ex : ∑ k, D2_dirichlet_mat N h p.1 k * v (k, p.2)
      = (v (⟨(p.1 : ℕ) - 1, by omega⟩, p.2) - 2 * v p
          + v (⟨(p.1 : ℕ) + 1, by omega⟩, p.2)) / h ^ 2 := by
    rw [Finset.sum_congr rfl fun k _ => by
      rw [d2_dirichlet_interior_row N h p.1 h11 h12 k, div_mul_eq_mul_div]]
    rw [← Finset.sum_div]
    rw [diags3_row_sum N p.1 h11 h12 (fun k => v (k, p.2))
      ⟨(p.1 : ℕ) - 1, by omega⟩ p.1 ⟨(p.1 : ℕ) + 1, by omega⟩
      (show (p.1 : ℕ) - 1 + 1 = (p.1 : ℕ) by omega) rfl rfl]
  have ey : ∑ l, D2_dirichlet_mat N h p.2 l * v (p.1, l)
      = (v (p.1, ⟨(p.2 : ℕ) - 1, by omega⟩) - 2 * v p
          + v (p.1, ⟨(p.2 : ℕ) + 1, by omega⟩)) / h ^ 2 := by
    rw [Finset.sum_congr rfl fun l _ => by
      rw [d2_dirichlet_interior_row N h p.2 h21 h22 l, div_mul_eq_mul_div]]
    rw [← Finset.sum_div]
    rw [diags3_row_sum N p.2 h21 h22 (fun l => v (p.1, l))
      ⟨(p.2 : ℕ) - 1, by omega⟩ p.2 ⟨(p.2 : ℕ) + 1, by omega⟩
      (show (p.2 : ℕ) - 1 + 1 = (p.2 : ℕ) by omega) rfl rfl]
  rw [laplace, Matrix.add_mulVec, Pi.add_apply, kron2_one_mulVec, one_kron2_mulVec,
    ex, ey, div_add_div_same]

/-- Discrete maximum principle for the five-point scheme: a grid function
that vanishes on the boundary ring and whose interior values equal the
average of their four neighbours is nonpositive everywhere. -/
theorem grid_max_principle (N : ℕ) (v : Grid N → ℚ)
    (hbnd : ∀ p, boundary_mask N p = true → v p = 0)
    (hint : ∀ p : Grid N, ∀ (h11 : 1 ≤ (p.1 : ℕ)) (h12 : (p.1 : ℕ) ≤ N - 1)
      (h21 : 1 ≤ (p.2 : ℕ)) (h22 : (p.2 : ℕ) ≤ N - 1),
      v (⟨(p.1 : ℕ) - 1, by omega⟩, p.2) + v (⟨(p.1 : ℕ) + 1, by omega⟩, p.2)
        + v (p.1, ⟨(p.2 : ℕ) - 1, by omega⟩) + v (p.1, ⟨(p.2 : ℕ) + 1, by omega⟩)
        = 4 * v p) :
    ∀ p, v p ≤ 0 := by
  obtain ⟨p0, -, hp0⟩ := Finset.exists_max_image (Finset.univ : Finset (Grid N)) v
    ⟨(0, 0), Finset.mem_univ _⟩
  have hp0' : ∀ p, v p ≤ v p0 := fun p => hp0 p (Finset.mem_univ p)
  have aux : ∀ i : ℕ, ∀ p : Grid N, (p.1 : ℕ) = i → v p = v p0 → v p0 = 0 := by
    intro i
    induction i with
    | zero =>
      intro p hpi hpv
      have hb : boundary_mask N p = true := by
        simp only [boundary_mask, decide_eq_true_eq]
        omega
      rw [← hpv, hbnd p hb]
    | succ i ih =>
      intro p hpi hpv
      by_cases hb : boundary_mask N p = true
      · rw [← hpv, hbnd p hb]
      · have hbint : 1 ≤ (p.1 : ℕ) ∧ (p.1 : ℕ) ≤ N - 1
            ∧ 1 ≤ (p.2 : ℕ) ∧ (p.2 : ℕ) ≤ N - 1 := by
          simp only [boundary_mask, decide_eq_true_eq, not_not] at hb
          exact hb
        obtain ⟨h11, h12, h21, h22⟩ := hbint
        have heq := hint p h11 h12 h21 h22
        have hLle := hp0' (⟨(p.1 : ℕ) - 1, by omega⟩, p.2)
        have hRle := hp0' (⟨(p.1 : ℕ) + 1, by omega⟩, p.2)
        have hDle := hp0' (p.1, ⟨(p.2 : ℕ) - 1, by omega⟩)
        have hUle := hp0' (p.1, ⟨(p.2 : ℕ) + 1, by omega⟩)
        have hLeq : v (⟨(p.1 : ℕ) - 1, by omega⟩, p.2) = v p0 := by
          linarith
        exact ih (⟨(p.1 : ℕ) - 1, by omega⟩, p.2)
          (show (p.1 : ℕ) - 1 = i by omega) hLeq
  have hzero : v p0 = 0 := aux (p0.1 : ℕ) p0 rfl rfl
  intro p
  calc v p ≤ v p0 := hp0' p
    _ = 0 := hzero

/-- The assembled Poisson matrix on the unit square is injective: the
boundary rows force zero boundary values and the interior rows give the
mean-value equation, so the discrete maximum principle applies. -/
theorem assemble_A_mulVec_zero (N : ℕ) (v : Grid N → ℚ)
    (hv : (assemble_A N 1).mulVec v = 0) : v = 0 := by
  have hbnd : ∀ p, boundary_mask N p = true → v p = 0 := by
    intro p hp
    have hcf := congrFun hv p
    rwa [mulVec_of_identity_row _ v p (assemble_A_identity_row N 1 p hp)] at hcf
  have hint : ∀ p : Grid N, ∀ (h11 : 1 ≤ (p.1 : ℕ)) (h12 : (p.1 : ℕ) ≤ N - 1)
      (h21 : 1 ≤ (p.2 : ℕ)) (h22 : (p.2 : ℕ) ≤ N - 1),
      v (⟨(p.1 : ℕ) - 1, by omega⟩, p.2) + v (⟨(p.1 : ℕ) + 1, by omega⟩, p.2)
        + v (p.1, ⟨(p.2 : ℕ) - 1, by omega⟩) + v (p.1, ⟨(p.2 : ℕ) + 1, by omega⟩)
        = 4 * v p := by
    intro p h11 h12 h21 h22
    have hmask : boundary_mask N p = false := by
      simp only [boundary_mask, decide_eq_false_iff_not, not_not]
      exact ⟨h11, h12, h21, h22⟩
    have hcf := congrFun hv p
    simp only [Pi.zero_apply] at hcf
    have hlap : (laplace N (1 / (N : ℚ))).mulVec v p = 0 := by
      rw [← hcf, Matrix.mulVec, Matrix.mulVec, Matrix.dotProduct, Matrix.dotProduct]
      exact (Finset.sum_congr rfl fun q _ => by
        rw [assemble_A_interior_row N 1 p hmask q]).symm
    rw [laplace_mulVec_interior N (1 / (N : ℚ)) v p h11 h12 h21 h22] at hlap
    have hN2 : 2 ≤ N := by omega
    have hh : (1 / (N : ℚ)) ^ 2 ≠ 0 := by
      have hN0 : (N : ℚ) ≠ 0 := Nat.cast_ne_zero.mpr (by omega)
      exact pow_ne_zero 2 (one_div_ne_zero hN0)
    have hnum := (div_eq_zero_iff.mp hlap).resolve_right hh
    linarith
  have hle := grid_max_principle N v hbnd hint
  have hbnd' : ∀ p, boundary_mask N p = true → (-v) p = 0 := by
    intro p hp
    simp [hbnd p hp]
  have hint' : ∀ p : Grid N, ∀ (h11 : 1 ≤ (p.1 : ℕ)) (h12 : (p.1 : ℕ) ≤ N - 1)
      (h21 : 1 ≤ (p.2 : ℕ)) (h22 : (p.2 : ℕ) ≤ N - 1),
      (-v) (⟨(p.1 : ℕ) - 1, by omega⟩, p.2) + (-v) (⟨(p.1 : ℕ) + 1, by omega⟩, p.2)
        + (-v) (p.1, ⟨(p.2 : ℕ) - 1, by omega⟩) + (-v) (p.1, ⟨(p.2 : ℕ) + 1, by omega⟩)
        = 4 * (-v) p := by
    intro p h11 h12 h21 h22
    have := hint p h11 h12 h21 h22
    simp only [Pi.neg_apply]
    linarith
  have hge := grid_max_principle N (-v) hbnd' hint'
  funext p
  have h1 := hle p
  have h2 := hge p
  simp only [Pi.neg_apply] at h2
  show v p = 0
  linarith

/-- The assembled Poisson matrix on the unit square is non-singular. -/
theorem assemble_A_det_ne_zero (N : ℕ) : (assemble_A N 1).det ≠ 0 := by
  intro hdet
  obtain ⟨w, hw0, hw⟩ := Matrix.exists_mulVec_eq_zero_iff.mpr hdet
  exact hw0 (assemble_A_mulVec_zero N w hw)

/-- Cramer's rule inverts a non-singular system: applied to `A ·ᵥ u` it
recovers `u`. -/
theorem spsolve_model_unique {m : Type*} [Fintype m] [DecidableEq m]
    (A : Matrix m m ℚ) (u : m → ℚ) (hA : A.det ≠ 0) :
    spsolve_model A (A.mulVec u) = u := by
  have hc : Matrix.cramer A (A.mulVec u) = A.det • u := by
    rw [Matrix.cramer_eq_adjugate_mulVec, Matrix.mulVec_mulVec, Matrix.adjugate_mul,
      Matrix.smul_mulVec_assoc, Matrix.one_mulVec]
  funext i
  have hci := congrFun hc i
  rw [Matrix.cramer_apply] at hci
  show (A.updateColumn i (A.mulVec u)).det / A.det = u i
  rw [hci, Pi.smul_apply, smul_eq_mul, mul_div_cancel_left₀ _ hA]

/-- The manufactured solution `ue = x³` of the C8 scenario: a nonconstant
symbolic expression, so its lambdified evaluator returns mesh-shaped
arrays and `assemble` runs without error. -/
def cubic_ue (a : ℚ) (_ : ℚ) : ℚ := a ^ 3

/-- The source term of `ue = x³`, computed by the solver as the symbolic
Laplacian: `f = ∇²(x³) = 6x`. -/
def cubic_f (a : ℚ) (_ : ℚ) : ℚ := 6 * a

/-- The cubic manufactured solution sampled on the mesh. -/
def cubic_sample (N : ℕ) : Grid N → ℚ :=
  fun p => (mesh_coord 1 N (p.1 : ℕ)) ^ 3

/-- The sampled cubic solves the assembled system exactly: boundary rows
are identity rows carrying the exact sample, and the five-point stencil
differences a cubic exactly (`((x-h)³ - 2x³ + (x+h)³)/h² = 6x`). -/
theorem assemble_cubic_solves (N : ℕ) :
    (assemble_A N 1).mulVec (cubic_sample N)
      = assemble_b N 1 cubic_ue cubic_f := by
  funext p
  by_cases hp : boundary_mask N p = true
  · rw [mulVec_of_identity_row _ _ p (assemble_A_identity_row N 1 p hp)]
    show cubic_sample N p = assemble_b N 1 cubic_ue cubic_f p
    simp only [assemble_b]
    rw [if_pos hp]
    rfl
  · have hmask : boundary_mask N p = false := by
      cases hmb : boundary_mask N p with
      | false => rfl
      | true => exact absurd hmb hp
    have hbint : 1 ≤ (p.1 : ℕ) ∧ (p.1 : ℕ) ≤ N - 1
        ∧ 1 ≤ (p.2 : ℕ) ∧ (p.2 : ℕ) ≤ N - 1 := by
      simp only [boundary_mask, decide_eq_false_iff_not, not_not] at hmask
      exact hmask
    obtain ⟨h11, h12, h21, h22⟩ := hbint
    have hrow : (assemble_A N 1).mulVec (cubic_sample N) p
        = (laplace N (1 / (N : ℚ))).mulVec (cubic_sample N) p := by
      rw [Matrix.mulVec, Matrix.mulVec, Matrix.dotProduct, Matrix.dotProduct]
      refine Finset.sum_congr rfl fun q _ => ?_
      rw [assemble_A_interior_row N 1 p
        (by cases hmb : boundary_mask N p with
            | false => rfl
            | true => exact absurd hmb hp) q]
    rw [hrow, laplace_mulVec_interior N (1 / (N : ℚ)) (cubic_sample N) p h11 h12 h21 h22]
    show _ = assemble_b N 1 cubic_ue cubic_f p
    simp only [assemble_b]
    rw [if_neg hp]
    have hN0 : (N : ℚ) ≠ 0 := Nat.cast_ne_zero.mpr (by omega)
    have hc1 : (((p.1 : ℕ) - 1 : ℕ) : ℚ) = ((p.1 : ℕ) : ℚ) - 1 := by
      rw [Nat.cast_sub h11, Nat.cast_one]
    have hc2 : (((p.1 : ℕ) + 1 : ℕ) : ℚ) = ((p.1 : ℕ) : ℚ) + 1 := by
      push_cast
      ring
    simp only [cubic_sample, cubic_ue, cubic_f, mesh_coord]
    rw [hc1, hc2]
    field_simp
    ring

/-- Solving the assembled system with the cubic data returns exactly the
sampled cubic. -/
theorem poisson_call_cubic (N : ℕ) :
    poisson_call 1 cubic_ue cubic_f N = cubic_sample N := by
  rw [poisson_call, ← assemble_cubic_solves N]
  exact spsolve_model_unique (assemble_A N 1) (cubic_sample N) (assemble_A_det_ne_zero N)

/-- Every level of the cubic convergence study has exactly zero (squared)
L2 error. -/
theorem poisson_cubic_error_zero (N : ℕ) :
    l2_error_sq_poisson 1 N cubic_ue (poisson_call 1 cubic_ue cubic_f N) = 0 := by
  rw [poisson_call_cubic]
  simp [l2_error_sq_poisson, cubic_sample, cubic_ue]

/-- Claim C9.  For every Poisson solve and every boundary grid index `p`
(outer ring of the `(N+1)×(N+1)` mesh), any solution `U` of the
assembled system `A·vec(U) = b` satisfies `vec(U)[p] = b[p]` — the
computed field at every boundary point equals the sampled exact solution
exactly, because row `p` of `A` is an identity row. -/
theorem poisson_boundary_rows_force_exact_values (N : ℕ) (L : ℚ)
    (ue f : ℚ → ℚ → ℚ) (U : Grid N → ℚ) (p : Grid N)
    (hp : boundary_mask N p = true)
    (hU : (assemble_A N L).mulVec U = assemble_b N L ue f) :
    U p = assemble_b N L ue f p := by
  have hrow : ∀ q, assemble_A N L p q = if q = p then 1 else 0 := by
    intro q
    rw [assemble_A, foldl_set_identity_row,
      if_pos ((mem_boundary_indices N p).mpr hp)]
  have hmv : (assemble_A N L).mulVec U p = U p := by
    have hterm : ∀ q, assemble_A N L p q * U q = if q = p then U q else 0 := by
      intro q
      rw [hrow q]
      by_cases hq : q = p
      · rw [if_pos hq, if_pos hq, one_mul]
      · rw [if_neg hq, if_neg hq, zero_mul]
    rw [Matrix.mulVec, Matrix.dotProduct, Finset.sum_congr rfl fun q _ => hterm q]
    calc (∑ q : Grid N, if q = p then U q else 0)
        = if p ∈ Finset.univ then U p else 0 := Finset.sum_ite_eq' Finset.univ p U
      _ = U p := if_pos (Finset.mem_univ p)
  rw [← hmv]
  exact congrFun hU p

/-- Witness for C9 at `N = 3`, `L = 1`, zero data, `U = 0`,
`p = (0, 0)`. -/
theorem poisson_boundary_rows_force_exact_values_witness :
    boundary_mask 3 ((0 : Fin 4), (0 : Fin 4)) = true ∧
    (assemble_A 3 1).mulVec 0 = assemble_b 3 1 (fun _ _ => 0) (fun _ _ => 0) ∧
    (0 : Grid 3 → ℚ) ((0 : Fin 4), (0 : Fin 4))
      = assemble_b 3 1 (fun _ _ => 0) (fun _ _ => 0) ((0 : Fin 4), (0 : Fin 4)) :=
  ⟨by decide, by rw [Matrix.mulVec_zero, assemble_b_zero],
    poisson_boundary_rows_force_exact_values 3 1 (fun _ _ => 0) (fun _ _ => 0) 0
      ((0 : Fin 4), (0 : Fin 4)) (by decide)
      (by rw [Matrix.mulVec_zero, assemble_b_zero])⟩

/-- Claim C8, counterexample.  The claim quantifies over Poisson solvers
on `L = 1` and asserts a strictly decreasing error sequence together
with the exact spacing sequence.  For the admissible manufactured
solution `ue = x³` (nonconstant, so the lambdified evaluators return
arrays and `assemble` runs; `f = ∇²ue = 6x`), the assembled system is
solved exactly by the sampled cubic — the boundary rows are identity
rows and the five-point stencil differences a cubic exactly — so the
error sequence of `convergence_rates(m = 6)` is `[0,0,0,0,0,0]`, which
is not strictly decreasing.  (The ordering is unaffected by the
squared-error convention, see the file header.) -/
theorem poisson_errors_not_strictly_decreasing :
    ¬ ((convergence_levels 1 cubic_ue cubic_f 6 8).2
          = [1/8, 1/16, 1/32, 1/64, 1/128, 1/256] ∧
        List.Chain' (fun a b => b < a)
          (convergence_levels 1 cubic_ue cubic_f 6 8).1) := by
  intro hcl
  have hE : (convergence_levels 1 cubic_ue cubic_f 6 8).1
      = [0, 0, 0, 0, 0, 0] := by
    simp [convergence_levels, poisson_cubic_error_zero]
  rcases hcl with ⟨-, hc⟩
  rw [hE, List.chain'_cons] at hc
  exact absurd hc.1 (lt_irrefl 0)

/-- Claim C8, amended.  For every Poisson solver on domain length `L = 1`,
`convergence_rates(m = 6)` starting at `N0 = 8` with doubling
resolutions returns the spacing sequence exactly
`(1/8, 1/16, 1/32, 1/64, 1/128, 1/256)`; the error sequence, however,
need not be strictly decreasing (it is constantly zero for the cubic
manufactured solution `ue = x³`, which the scheme reproduces exactly). -/
theorem poisson_h_sequence_exact (ue f : ℚ → ℚ → ℚ) :
    (convergence_levels 1 ue f 6 8).2
      = [1/8, 1/16, 1/32, 1/64, 1/128, 1/256] := by
  norm_num [convergence_levels]
